import Mathlib

/-!
Verification of the bounded-concurrency task scheduler from the utils
repository (module src/concurrency.ts): the ConcurrencyController class and
its derived helpers concurrentMap, batchExecute, retry, and withTimeout.

The controller is modelled as a small-step state machine.  The host language
is single-threaded and cooperative: the controller's bookkeeping (counter
updates, queue push/shift) is synchronous and never suspends, so the
observable instants are exactly the states between suspension points.  The
two kinds of steps are:

* an execute call (the synchronous prefix of ConcurrencyController.execute:
  either the task starts at once, incrementing running, or a start-thunk is
  appended to the queue);
* the settlement of a running task (the continuation after the task's
  promise settles: resolve or reject of the execute promise, the decrement
  of running in the finally block, and the processQueue call).

Tasks are opaque: a task is identified by the order of its execute call
(a fresh natural number), and an oracle assigns each task the outcome of
its own invocation.  The source keeps running as a plain counter; the model
keeps the list of ids of the running tasks, whose length is the counter.
Two ghost trace fields (dequeued, settled) record the ids started from the
queue in dequeue order and the settlements of execute promises; they let
FIFO admission and outcome propagation be stated without changing any
behaviour.
-/

namespace Utils

/-- Status of a settled task, as in the TaskResult type of the source. -/
inductive TRStatus : Type where
  | fulfilled : TRStatus
  | rejected : TRStatus

/-- TaskResult record of the source: a discriminated outcome with the
original index of the task.  Exactly one of value and reason is populated,
matching status. -/
structure TaskResult (E V : Type) : Type where
  status : TRStatus
  value : Option V
  reason : Option E
  index : Nat

/-- State of a ConcurrencyController.  The source stores limit, a running
counter and the queue of start-thunks; runningTasks replaces the counter by
the list of running ids (the counter is its length), and dequeued/settled
are ghost traces. -/
structure ConcurrencyController (E V : Type) : Type where
  limit : Nat
  nextId : Nat
  runningTasks : List Nat
  queue : List Nat
  dequeued : List Nat
  settled : List (Nat × Except E V)

namespace ConcurrencyController

/-- Constructor: this.limit = Math.max(1, limit); all other state empty. -/
def init (E V : Type) (limit : Int) : ConcurrencyController E V :=
  { limit := (max 1 limit).toNat
    nextId := 0
    runningTasks := []
    queue := []
    dequeued := []
    settled := [] }

/-- Accessor runningCount: the current number of running tasks. -/
def runningCount (s : ConcurrencyController E V) : Nat :=
  s.runningTasks.length

/-- Accessor queueCount: the current queue length. -/
def queueCount (s : ConcurrencyController E V) : Nat :=
  s.queue.length

/-- Synchronous prefix of an execute call: if (running < limit) the task
starts at once (run() increments running before the first await), else the
start-thunk is pushed to the tail of the queue.  The fresh id records the
order of the call. -/
def execute (s : ConcurrencyController E V) : ConcurrencyController E V :=
  if s.runningTasks.length < s.limit then
    { s with runningTasks := s.runningTasks ++ [s.nextId], nextId := s.nextId + 1 }
  else
    { s with queue := s.queue ++ [s.nextId], nextId := s.nextId + 1 }

/-- processQueue of the source: if (queue.length > 0 and running < limit)
shift the head thunk and run it (which increments running at once). -/
def processQueue (s : ConcurrencyController E V) : ConcurrencyController E V :=
  match s.queue with
  | [] => s
  | next :: rest =>
    if s.runningTasks.length < s.limit then
      { s with
          queue := rest
          runningTasks := s.runningTasks ++ [next]
          dequeued := s.dequeued ++ [next] }
    else s

/-- Settlement of running task i with the outcome out i of its own
invocation: resolve(result) on success or reject(error) on failure (the
settled trace records which), then the finally block: running is
decremented and processQueue runs. -/
def settleTask (out : Nat → Except E V) (s : ConcurrencyController E V) (i : Nat) :
    ConcurrencyController E V :=
  let afterSettle : ConcurrencyController E V :=
    match out i with
    | Except.ok v => { s with settled := s.settled ++ [(i, Except.ok v)] }
    | Except.error e => { s with settled := s.settled ++ [(i, Except.error e)] }
  let afterDecrement : ConcurrencyController E V :=
    { afterSettle with runningTasks := afterSettle.runningTasks.erase i }
  processQueue afterDecrement

end ConcurrencyController

/-- One observable step of a controller: an execute call, or the settlement
of one of the running tasks. -/
inductive Step (out : Nat → Except E V) :
    ConcurrencyController E V → ConcurrencyController E V → Prop where
  | exec (s : ConcurrencyController E V) : Step out s s.execute
  | settle (s : ConcurrencyController E V) (i : Nat) (h : i ∈ s.runningTasks) :
      Step out s (ConcurrencyController.settleTask out s i)

/-- States reachable from a freshly constructed controller under an
arbitrary interleaving of execute calls and task settlements. -/
inductive Reachable (out : Nat → Except E V) (l : Int) :
    ConcurrencyController E V → Prop where
  | init : Reachable out l (ConcurrencyController.init E V l)
  | step {s t : ConcurrencyController E V} :
      Reachable out l s → Step out s t → Reachable out l t

/-- Inductive invariant of the controller: the limit is the clamped
construction argument, running never exceeds it, the queue is non-empty
only at full capacity, queued ids follow all dequeued ids and both are in
call order, ids are below the fresh-id counter, and every settled execute
promise carries exactly the outcome of its own task. -/
def Inv (out : Nat → Except E V) (l : Int) (s : ConcurrencyController E V) : Prop :=
  s.limit = (max 1 l).toNat ∧
  1 ≤ s.limit ∧
  s.runningTasks.length ≤ s.limit ∧
  (s.queue ≠ [] → s.runningTasks.length = s.limit) ∧
  List.Pairwise (fun a b => a < b) (s.dequeued ++ s.queue) ∧
  (∀ i ∈ s.dequeued ++ s.queue, i < s.nextId) ∧
  (∀ p ∈ s.settled, p.2 = out p.1)

theorem inv_init (out : Nat → Except E V) (l : Int) :
    Inv out l (ConcurrencyController.init E V l) := by
  refine ⟨rfl, ?_, by simp [ConcurrencyController.init], ?_, by simp [ConcurrencyController.init],
    ?_, ?_⟩
  · have h1 : (1 : Int) ≤ max 1 l := le_max_left 1 l
    simp only [ConcurrencyController.init]
    omega
  · intro h
    exact absurd rfl h
  · intro i hi
    simp [ConcurrencyController.init] at hi
  · intro p hp
    simp [ConcurrencyController.init] at hp

theorem inv_execute {out : Nat → Except E V} {l : Int} {s : ConcurrencyController E V}
    (h : Inv out l s) : Inv out l s.execute := by
  obtain ⟨h1, h2, h3, h4, h5, h6, h7⟩ := h
  unfold ConcurrencyController.execute
  by_cases hc : s.runningTasks.length < s.limit
  · simp only [if_pos hc]
    refine ⟨h1, h2, ?_, ?_, h5, ?_, h7⟩
    · show (s.runningTasks ++ [s.nextId]).length ≤ s.limit
      have hl : (s.runningTasks ++ [s.nextId]).length = s.runningTasks.length + 1 := by simp
      omega
    · intro hq
      exact absurd (h4 hq) (Nat.ne_of_lt hc)
    · intro i hi
      show i < s.nextId + 1
      have := h6 i hi
      omega
  · simp only [if_neg hc]
    refine ⟨h1, h2, h3, ?_, ?_, ?_, h7⟩
    · intro _
      show s.runningTasks.length = s.limit
      omega
    · show List.Pairwise (fun a b => a < b) (s.dequeued ++ (s.queue ++ [s.nextId]))
      rw [← List.append_assoc, List.pairwise_append]
      refine ⟨h5, List.pairwise_singleton _ _, ?_⟩
      intro a ha b hb
      simp only [List.mem_singleton] at hb
      subst hb
      exact h6 a ha
    · intro i hi
      show i < s.nextId + 1
      rw [← List.append_assoc] at hi
      rcases List.mem_append.mp hi with hi | hi
      · have := h6 i hi
        omega
      · simp only [List.mem_singleton] at hi
        omega

/-- The two settle branches (resolve on ok, reject on error) produce the
same state shape: the outcome is appended to the settled trace verbatim,
running is decremented, and processQueue runs. -/
theorem settleTask_eq (out : Nat → Except E V) (s : ConcurrencyController E V) (i : Nat) :
    ConcurrencyController.settleTask out s i =
      ConcurrencyController.processQueue
        { s with runningTasks := s.runningTasks.erase i,
                 settled := s.settled ++ [(i, out i)] } := by
  unfold ConcurrencyController.settleTask
  cases hout : out i <;> simp only [hout]

theorem processQueue_nil {s : ConcurrencyController E V} (h : s.queue = []) :
    ConcurrencyController.processQueue s = s := by
  unfold ConcurrencyController.processQueue
  rw [h]

theorem processQueue_cons {s : ConcurrencyController E V} {next : Nat} {rest : List Nat}
    (h : s.queue = next :: rest) :
    ConcurrencyController.processQueue s =
      if s.runningTasks.length < s.limit then
        { s with
            queue := rest
            runningTasks := s.runningTasks ++ [next]
            dequeued := s.dequeued ++ [next] }
      else s := by
  unfold ConcurrencyController.processQueue
  rw [h]

theorem inv_settleTask {out : Nat → Except E V} {l : Int} {s : ConcurrencyController E V}
    {i : Nat} (h : Inv out l s) (hm : i ∈ s.runningTasks) :
    Inv out l (ConcurrencyController.settleTask out s i) := by
  obtain ⟨h1, h2, h3, h4, h5, h6, h7⟩ := h
  have hpos : 0 < s.runningTasks.length := List.length_pos_of_mem hm
  have hlen : (s.runningTasks.erase i).length = s.runningTasks.length - 1 :=
    List.length_erase_of_mem hm
  rw [settleTask_eq]
  set s2 : ConcurrencyController E V :=
    { s with runningTasks := s.runningTasks.erase i,
             settled := s.settled ++ [(i, out i)] } with hs2
  have hsettled : ∀ p ∈ s2.settled, p.2 = out p.1 := by
    intro p hp
    rcases List.mem_append.mp hp with hp | hp
    · exact h7 p hp
    · simp only [List.mem_singleton] at hp
      subst hp
      rfl
  cases hq : s.queue with
  | nil =>
    rw [processQueue_nil (show s2.queue = [] from hq)]
    refine ⟨h1, h2, ?_, ?_, ?_, ?_, hsettled⟩
    · show (s.runningTasks.erase i).length ≤ s.limit
      omega
    · intro hq2
      exact absurd hq hq2
    · show List.Pairwise (fun a b => a < b) (s.dequeued ++ s.queue)
      exact h5
    · intro j hj
      exact h6 j hj
  | cons next rest =>
    have hfull : s.runningTasks.length = s.limit := h4 (by rw [hq]; simp)
    have hlt : s2.runningTasks.length < s2.limit := by
      show (s.runningTasks.erase i).length < s.limit
      omega
    rw [processQueue_cons (show s2.queue = next :: rest from hq), if_pos hlt]
    refine ⟨h1, h2, ?_, ?_, ?_, ?_, hsettled⟩
    · show ((s.runningTasks.erase i) ++ [next]).length ≤ s.limit
      have : ((s.runningTasks.erase i) ++ [next]).length =
        (s.runningTasks.erase i).length + 1 := by simp
      omega
    · intro _
      show ((s.runningTasks.erase i) ++ [next]).length = s.limit
      have : ((s.runningTasks.erase i) ++ [next]).length =
        (s.runningTasks.erase i).length + 1 := by simp
      omega
    · show List.Pairwise (fun a b => a < b) ((s.dequeued ++ [next]) ++ rest)
      rw [List.append_assoc, List.singleton_append]
      rw [hq] at h5
      exact h5
    · intro j hj
      show j < s.nextId
      rw [List.append_assoc, List.singleton_append] at hj
      refine h6 j ?_
      rw [hq]
      exact hj

/-- Every reachable state of a controller satisfies the invariant. -/
theorem inv_reachable {out : Nat → Except E V} {l : Int} {s : ConcurrencyController E V}
    (h : Reachable out l s) : Inv out l s := by
  induction h with
  | init => exact inv_init out l
  | step _ hs ih =>
    cases hs with
    | exec => exact inv_execute ih
    | settle i hm => exact inv_settleTask ih hm

/-- Claim C1: a controller constructed with integer limit l has effective
ceiling max(1, l) (a non-positive input is silently coerced, not an error),
and at every observable instant between suspension points, under any
sequence of execute calls and task outcomes, 0 <= runningCount <= max(1, l). -/
theorem runningCount_bounded_by_clamped_limit (out : Nat → Except E V) (l : Int)
    (s : ConcurrencyController E V) (h : Reachable out l s) :
    (s.limit : Int) = max 1 l ∧ 0 ≤ s.runningCount ∧ s.runningCount ≤ s.limit := by
  obtain ⟨h1, _, h3, _, _, _, _⟩ := inv_reachable h
  refine ⟨?_, Nat.zero_le _, h3⟩
  rw [h1]
  have hmax : (1 : Int) ≤ max 1 l := le_max_left 1 l
  omega

/-- Example outcome oracle: task 0 rejects, all others fulfill. -/
def exOut : Nat → Except Nat Nat :=
  fun n => if n = 0 then Except.error 7 else Except.ok n

/-- Example state: a controller with limit 1 after two execute calls; task 0
is running and task 1 is queued. -/
def exState : ConcurrencyController Nat Nat :=
  ((ConcurrencyController.init Nat Nat 1).execute).execute

theorem exState_reachable : Reachable exOut 1 exState :=
  Reachable.step (Reachable.step Reachable.init (Step.exec _)) (Step.exec _)

theorem runningCount_bounded_witness :
    (exState.limit : Int) = max 1 1 ∧ 0 ≤ exState.runningCount ∧
      exState.runningCount ≤ exState.limit :=
  runningCount_bounded_by_clamped_limit exOut 1 exState exState_reachable

/-- Claim C2: queued tasks are admitted strictly in the order of their
execute calls (ids are assigned in call order: every id already started
from the queue precedes, in call order, every id still queued, and the
started-from-queue trace is itself in call order); after any settle, if the
queue is non-empty the head is dequeued and started (the freed slot always
gives capacity, so the single-dequeue if realizes the while-capacity rule);
no dequeue happens when the queue is empty, and an execute call never
dequeues. -/
theorem queue_fifo_admission (out : Nat → Except E V) (l : Int)
    (s : ConcurrencyController E V) (h : Reachable out l s) :
    List.Pairwise (fun a b => a < b) (s.dequeued ++ s.queue) ∧
    (∀ i ∈ s.runningTasks, ∀ next rest, s.queue = next :: rest →
        (ConcurrencyController.settleTask out s i).runningTasks =
          s.runningTasks.erase i ++ [next] ∧
        (ConcurrencyController.settleTask out s i).queue = rest ∧
        (ConcurrencyController.settleTask out s i).dequeued = s.dequeued ++ [next]) ∧
    (∀ i ∈ s.runningTasks, s.queue = [] →
        (ConcurrencyController.settleTask out s i).dequeued = s.dequeued ∧
        (ConcurrencyController.settleTask out s i).queue = []) ∧
    s.execute.dequeued = s.dequeued := by
  obtain ⟨h1, h2, h3, h4, h5, h6, h7⟩ := inv_reachable h
  refine ⟨h5, ?_, ?_, ?_⟩
  · intro i hi next rest hq
    have hpos : 0 < s.runningTasks.length := List.length_pos_of_mem hi
    have hlen : (s.runningTasks.erase i).length = s.runningTasks.length - 1 :=
      List.length_erase_of_mem hi
    have hfull : s.runningTasks.length = s.limit := h4 (by rw [hq]; simp)
    rw [settleTask_eq]
    set s2 : ConcurrencyController E V :=
      { s with runningTasks := s.runningTasks.erase i,
               settled := s.settled ++ [(i, out i)] } with hs2
    have hlt : s2.runningTasks.length < s2.limit := by
      show (s.runningTasks.erase i).length < s.limit
      omega
    rw [processQueue_cons (show s2.queue = next :: rest from hq), if_pos hlt]
    exact ⟨rfl, rfl, rfl⟩
  · intro i _ hq
    rw [settleTask_eq]
    set s2 : ConcurrencyController E V :=
      { s with runningTasks := s.runningTasks.erase i,
               settled := s.settled ++ [(i, out i)] } with hs2
    rw [processQueue_nil (show s2.queue = [] from hq)]
    exact ⟨rfl, hq⟩
  · unfold ConcurrencyController.execute
    by_cases hc : s.runningTasks.length < s.limit
    · rw [if_pos hc]
    · rw [if_neg hc]

theorem queue_fifo_admission_witness :
    List.Pairwise (fun a b => a < b) (exState.dequeued ++ exState.queue) ∧
    (∀ i ∈ exState.runningTasks, ∀ next rest, exState.queue = next :: rest →
        (ConcurrencyController.settleTask exOut exState i).runningTasks =
          exState.runningTasks.erase i ++ [next] ∧
        (ConcurrencyController.settleTask exOut exState i).queue = rest ∧
        (ConcurrencyController.settleTask exOut exState i).dequeued =
          exState.dequeued ++ [next]) ∧
    (∀ i ∈ exState.runningTasks, exState.queue = [] →
        (ConcurrencyController.settleTask exOut exState i).dequeued = exState.dequeued ∧
        (ConcurrencyController.settleTask exOut exState i).queue = []) ∧
    exState.execute.dequeued = exState.dequeued :=
  queue_fifo_admission exOut 1 exState exState_reachable

/-- Claim C3: the promise returned by execute settles exactly as the task's
own invocation settles (the settled trace records the task's own outcome
verbatim, fulfilled value or rejection reason, never a controller-generated
value), and running is decremented after the task settles whatever the
outcome: with an empty queue the count drops by one, otherwise the freed
slot is at once refilled from the queue. -/
theorem execute_settles_like_task (out : Nat → Except E V) (l : Int)
    (s : ConcurrencyController E V) (h : Reachable out l s) :
    (∀ p ∈ s.settled, p.2 = out p.1) ∧
    (∀ i ∈ s.runningTasks,
        (ConcurrencyController.settleTask out s i).settled = s.settled ++ [(i, out i)] ∧
        (s.queue = [] →
          (ConcurrencyController.settleTask out s i).runningCount + 1 = s.runningCount) ∧
        (s.queue ≠ [] →
          (ConcurrencyController.settleTask out s i).runningCount = s.runningCount)) := by
  obtain ⟨h1, h2, h3, h4, h5, h6, h7⟩ := inv_reachable h
  refine ⟨h7, ?_⟩
  intro i hi
  have hpos : 0 < s.runningTasks.length := List.length_pos_of_mem hi
  have hlen : (s.runningTasks.erase i).length = s.runningTasks.length - 1 :=
    List.length_erase_of_mem hi
  rw [settleTask_eq]
  set s2 : ConcurrencyController E V :=
    { s with runningTasks := s.runningTasks.erase i,
             settled := s.settled ++ [(i, out i)] } with hs2
  cases hq : s.queue with
  | nil =>
    rw [processQueue_nil (show s2.queue = [] from hq)]
    refine ⟨rfl, ?_, ?_⟩
    · intro _
      show (s.runningTasks.erase i).length + 1 = s.runningTasks.length
      omega
    · intro hne
      exact absurd rfl hne
  | cons next rest =>
    have hfull : s.runningTasks.length = s.limit := h4 (by rw [hq]; simp)
    have hlt : s2.runningTasks.length < s2.limit := by
      show (s.runningTasks.erase i).length < s.limit
      omega
    rw [processQueue_cons (show s2.queue = next :: rest from hq), if_pos hlt]
    refine ⟨rfl, ?_, ?_⟩
    · intro hnil
      exact absurd hnil (List.cons_ne_nil next rest)
    · intro _
      show ((s.runningTasks.erase i) ++ [next]).length = s.runningTasks.length
      have : ((s.runningTasks.erase i) ++ [next]).length =
        (s.runningTasks.erase i).length + 1 := by simp
      omega

theorem execute_settles_like_task_witness :
    (∀ p ∈ exState.settled, p.2 = exOut p.1) ∧
    (∀ i ∈ exState.runningTasks,
        (ConcurrencyController.settleTask exOut exState i).settled =
          exState.settled ++ [(i, exOut i)] ∧
        (exState.queue = [] →
          (ConcurrencyController.settleTask exOut exState i).runningCount + 1 =
            exState.runningCount) ∧
        (exState.queue ≠ [] →
          (ConcurrencyController.settleTask exOut exState i).runningCount =
            exState.runningCount)) :=
  execute_settles_like_task exOut 1 exState exState_reachable

/-- Claim C8: in every reachable state, a non-empty queue implies running
equals the effective limit (the queue is non-empty only at full capacity);
hence after a settle frees exactly one slot, the single dequeue of
processQueue restores full capacity, which is why its if realizes the
spec's while-capacity dequeue rule. -/
theorem queue_nonempty_running_full (out : Nat → Except E V) (l : Int)
    (s : ConcurrencyController E V) (h : Reachable out l s) :
    (0 < s.queueCount → s.runningCount = s.limit) ∧
    (∀ i ∈ s.runningTasks, 0 < s.queueCount →
        (ConcurrencyController.settleTask out s i).runningCount = s.limit) := by
  obtain ⟨h1, h2, h3, h4, h5, h6, h7⟩ := inv_reachable h
  have hq' : 0 < s.queueCount → s.queue ≠ [] := by
    intro hc
    unfold ConcurrencyController.queueCount at hc
    intro hnil
    rw [hnil] at hc
    simp at hc
  constructor
  · intro hc
    exact h4 (hq' hc)
  · intro i hi hc
    have hpos : 0 < s.runningTasks.length := List.length_pos_of_mem hi
    have hlen : (s.runningTasks.erase i).length = s.runningTasks.length - 1 :=
      List.length_erase_of_mem hi
    have hne := hq' hc
    obtain ⟨next, rest, hq⟩ := List.exists_cons_of_ne_nil hne
    · have hfull : s.runningTasks.length = s.limit := h4 hne
      rw [settleTask_eq]
      set s2 : ConcurrencyController E V :=
        { s with runningTasks := s.runningTasks.erase i,
                 settled := s.settled ++ [(i, out i)] } with hs2
      have hlt : s2.runningTasks.length < s2.limit := by
        show (s.runningTasks.erase i).length < s.limit
        omega
      rw [processQueue_cons (show s2.queue = next :: rest from hq), if_pos hlt]
      show ((s.runningTasks.erase i) ++ [next]).length = s.limit
      have : ((s.runningTasks.erase i) ++ [next]).length =
        (s.runningTasks.erase i).length + 1 := by simp
      omega

theorem queue_nonempty_running_full_witness :
    (0 < exState.queueCount → exState.runningCount = exState.limit) ∧
    (∀ i ∈ exState.runningTasks, 0 < exState.queueCount →
        (ConcurrencyController.settleTask exOut exState i).runningCount = exState.limit) :=
  queue_nonempty_running_full exOut 1 exState exState_reachable

/-- Per-task recovery of concurrentMap and batchExecute: the try block
writes a fulfilled record with the awaited value, the catch block writes a
rejected record with the reason, both at the task's original index. -/
def taskResultOf (i : Nat) : Except E V → TaskResult E V
  | Except.ok v => { status := TRStatus.fulfilled, value := some v, reason := none, index := i }
  | Except.error e => { status := TRStatus.rejected, value := none, reason := some e, index := i }

/-- Result array produced for a block of consecutive tasks whose first
element sits at global index i0: each task's outcome is recorded at its own
index.  Used by both concurrentMap (whole array, i0 = 0) and batchExecute
(one chunk per call). -/
def mapIdxFrom (i0 : Nat) : List (Except E V) → List (TaskResult E V)
  | [] => []
  | o :: rest => taskResultOf i0 o :: mapIdxFrom (i0 + 1) rest

theorem mapIdxFrom_length (i0 : Nat) (l : List (Except E V)) :
    (mapIdxFrom i0 l).length = l.length := by
  induction l generalizing i0 with
  | nil => rfl
  | cons o rest ih => simp [mapIdxFrom, ih]

theorem mapIdxFrom_getElem? (i0 j : Nat) (l : List (Except E V)) :
    (mapIdxFrom i0 l)[j]? = l[j]?.map (fun o => taskResultOf (i0 + j) o) := by
  induction l generalizing i0 j with
  | nil => simp [mapIdxFrom]
  | cons o rest ih =>
    cases j with
    | zero => simp [mapIdxFrom]
    | succ j =>
      simp only [mapIdxFrom, List.getElem?_cons_succ, ih (i0 + 1) j]
      have : i0 + 1 + j = i0 + (j + 1) := by omega
      rw [this]

theorem mapIdxFrom_append (i0 : Nat) (l1 l2 : List (Except E V)) :
    mapIdxFrom i0 (l1 ++ l2) = mapIdxFrom i0 l1 ++ mapIdxFrom (i0 + l1.length) l2 := by
  induction l1 generalizing i0 with
  | nil => simp [mapIdxFrom]
  | cons o rest ih =>
    have hlen : i0 + 1 + rest.length = i0 + (rest.length + 1) := by omega
    calc mapIdxFrom i0 ((o :: rest) ++ l2)
        = taskResultOf i0 o :: mapIdxFrom (i0 + 1) (rest ++ l2) := rfl
      _ = taskResultOf i0 o ::
            (mapIdxFrom (i0 + 1) rest ++ mapIdxFrom (i0 + 1 + rest.length) l2) := by
          rw [ih (i0 + 1)]
      _ = taskResultOf i0 o ::
            (mapIdxFrom (i0 + 1) rest ++ mapIdxFrom (i0 + (rest.length + 1)) l2) := by
          rw [hlen]
      _ = mapIdxFrom i0 (o :: rest) ++ mapIdxFrom (i0 + (o :: rest).length) l2 := rfl

/-- Model of concurrentMap: every task is submitted in array order through
one internally created controller, each task's outcome is recovered locally
(try/catch) into a TaskResult at the task's original index, and the overall
promise resolves with the filled array after Promise.all — a task failure
never rejects the overall promise.  Because execute settles each task's
promise with exactly that task's own outcome (execute_settles_like_task),
the resolved array is determined by the outcomes alone; the limit gates
only when tasks start. -/
def concurrentMap (tasks : List (Except E V)) (limit : Int) : List (TaskResult E V) :=
  mapIdxFrom 0 tasks

/-- Claim C4: concurrentMap resolves with an array of the same length as
tasks, whose entry at every index i has index = i and is fulfilled with
task i's value or rejected with task i's reason; the empty task array gives
the empty result array. -/
theorem concurrentMap_shape (tasks : List (Except E V)) (limit : Int) :
    (concurrentMap tasks limit).length = tasks.length ∧
    (∀ i o, tasks[i]? = some o →
        (concurrentMap tasks limit)[i]? = some (taskResultOf i o) ∧
        (taskResultOf i o).index = i) ∧
    (∀ i v, tasks[i]? = some (Except.ok v) →
        (concurrentMap tasks limit)[i]? =
          some ({ status := TRStatus.fulfilled, value := some v, reason := none,
                  index := i } : TaskResult E V)) ∧
    (∀ i e, tasks[i]? = some (Except.error e) →
        (concurrentMap tasks limit)[i]? =
          some ({ status := TRStatus.rejected, value := none, reason := some e,
                  index := i } : TaskResult E V)) ∧
    concurrentMap ([] : List (Except E V)) limit = [] := by
  have hget : ∀ i o, tasks[i]? = some o →
      (concurrentMap tasks limit)[i]? = some (taskResultOf i o) := by
    intro i o hi
    unfold concurrentMap
    rw [mapIdxFrom_getElem?, hi]
    simp
  refine ⟨mapIdxFrom_length 0 tasks, ?_, ?_, ?_, rfl⟩
  · intro i o hi
    refine ⟨hget i o hi, ?_⟩
    cases o <;> rfl
  · intro i v hi
    exact hget i (Except.ok v) hi
  · intro i e hi
    exact hget i (Except.error e) hi

/-- Example task outcomes for the mapped and batched helpers: the middle
task rejects, the others fulfill. -/
def exTasks : List (Except Nat Nat) :=
  [Except.ok 10, Except.error 3, Except.ok 30]

theorem concurrentMap_shape_witness :
    (concurrentMap exTasks 2).length = exTasks.length ∧
    (∀ i o, exTasks[i]? = some o →
        (concurrentMap exTasks 2)[i]? = some (taskResultOf i o) ∧
        (taskResultOf i o).index = i) ∧
    (∀ i v, exTasks[i]? = some (Except.ok v) →
        (concurrentMap exTasks 2)[i]? =
          some ({ status := TRStatus.fulfilled, value := some v, reason := none,
                  index := i } : TaskResult Nat Nat)) ∧
    (∀ i e, exTasks[i]? = some (Except.error e) →
        (concurrentMap exTasks 2)[i]? =
          some ({ status := TRStatus.rejected, value := none, reason := some e,
                  index := i } : TaskResult Nat Nat)) ∧
    concurrentMap ([] : List (Except Nat Nat)) 2 = [] :=
  concurrentMap_shape exTasks 2

/-- Trace of one retry call: how the returned promise settles (the rejection
reason is Option E because the uninitialized lastError is undefined, i.e.
none), how many times the task was invoked, and the list of sleep durations
in order. -/
structure RetryTrace (E V : Type) : Type where
  result : Except (Option E) V
  calls : Nat
  sleeps : List Nat

/-- Loop of retry, from iteration counter attempt with the current
lastError: while (attempt <= maxRetries) try return await task() catch
(error) lastError = error; if (attempt < maxRetries) sleep(retryDelay).
After the loop, throw lastError.  The iteration counter is a Nat and
maxRetries an Int, as in the source where a negative maxRetries makes the
guard fail at once.  The attempt index is fed to the outcome oracle, so the
oracle gives the outcome of the n-th invocation. -/
def retryLoop (attempts : Nat → Except E V) (maxRetries : Int) (retryDelay : Nat)
    (attempt : Nat) (lastError : Option E) : RetryTrace E V :=
  if h : (attempt : Int) ≤ maxRetries then
    match attempts attempt with
    | Except.ok v => { result := Except.ok v, calls := 1, sleeps := [] }
    | Except.error e =>
      let rest := retryLoop attempts maxRetries retryDelay (attempt + 1) (some e)
      if (attempt : Int) < maxRetries then
        { result := rest.result, calls := rest.calls + 1, sleeps := retryDelay :: rest.sleeps }
      else
        { result := rest.result, calls := rest.calls + 1, sleeps := rest.sleeps }
  else
    { result := Except.error lastError, calls := 0, sleeps := [] }
termination_by (maxRetries + 1 - attempt).toNat
decreasing_by
  omega

/-- Model of retry(task, maxRetries, retryDelay): run the loop from
attempt 0 with lastError uninitialized. -/
def retry (attempts : Nat → Except E V) (maxRetries : Int) (retryDelay : Nat) :
    RetryTrace E V :=
  retryLoop attempts maxRetries retryDelay 0 none

theorem retryLoop_stop (attempts : Nat → Except E V) (maxRetries : Int) (retryDelay : Nat)
    (attempt : Nat) (lastError : Option E) (h : ¬ (attempt : Int) ≤ maxRetries) :
    retryLoop attempts maxRetries retryDelay attempt lastError =
      { result := Except.error lastError, calls := 0, sleeps := [] } := by
  rw [retryLoop, dif_neg h]

theorem retryLoop_ok (attempts : Nat → Except E V) (maxRetries : Int) (retryDelay : Nat)
    (attempt : Nat) (lastError : Option E) (v : V) (h : (attempt : Int) ≤ maxRetries)
    (hv : attempts attempt = Except.ok v) :
    retryLoop attempts maxRetries retryDelay attempt lastError =
      { result := Except.ok v, calls := 1, sleeps := [] } := by
  rw [retryLoop, dif_pos h, hv]

theorem retryLoop_err (attempts : Nat → Except E V) (maxRetries : Int) (retryDelay : Nat)
    (attempt : Nat) (lastError : Option E) (e : E) (h : (attempt : Int) ≤ maxRetries)
    (he : attempts attempt = Except.error e) :
    retryLoop attempts maxRetries retryDelay attempt lastError =
      (let rest := retryLoop attempts maxRetries retryDelay (attempt + 1) (some e)
       if (attempt : Int) < maxRetries then
         { result := rest.result, calls := rest.calls + 1, sleeps := retryDelay :: rest.sleeps }
       else
         { result := rest.result, calls := rest.calls + 1, sleeps := rest.sleeps }) := by
  rw [retryLoop, dif_pos h, he]

/-- A first success at relative offset k from the current attempt, after k
failing invocations, makes the loop stop with that success, k + 1 calls and
k sleeps of retryDelay. -/
theorem retryLoop_first_success (attempts : Nat → Except E V) (maxRetries : Int)
    (retryDelay : Nat) (v : V) :
    ∀ (k a : Nat) (lastError : Option E), ((a + k : Nat) : Int) ≤ maxRetries →
      attempts (a + k) = Except.ok v →
      (∀ j, j < k → ∃ e, attempts (a + j) = Except.error e) →
      retryLoop attempts maxRetries retryDelay a lastError =
        { result := Except.ok v, calls := k + 1, sleeps := List.replicate k retryDelay } := by
  intro k
  induction k with
  | zero =>
    intro a lastError hle hv _
    rw [Nat.add_zero] at hle hv
    exact retryLoop_ok attempts maxRetries retryDelay a lastError v
      (by exact_mod_cast hle) hv
  | succ k ih =>
    intro a lastError hle hv hfail
    obtain ⟨e, he⟩ := hfail 0 (Nat.succ_pos k)
    rw [Nat.add_zero] at he
    have ha : (a : Int) ≤ maxRetries := by
      have : ((a + (k + 1) : Nat) : Int) = (a : Int) + (k + 1 : Nat) := by push_cast; ring
      omega
    have halt : (a : Int) < maxRetries := by
      have : ((a + (k + 1) : Nat) : Int) = (a : Int) + (k + 1 : Nat) := by push_cast; ring
      have hk : ((k + 1 : Nat) : Int) = (k : Int) + 1 := by push_cast; ring
      omega
    rw [retryLoop_err attempts maxRetries retryDelay a lastError e ha he]
    simp only [if_pos halt]
    have hrec : retryLoop attempts maxRetries retryDelay (a + 1) (some e) =
        { result := Except.ok v, calls := k + 1, sleeps := List.replicate k retryDelay } := by
      refine ih (a + 1) (some e) ?_ ?_ ?_
      · have : a + 1 + k = a + (k + 1) := by omega
        rw [this]
        exact hle
      · have : a + 1 + k = a + (k + 1) := by omega
        rw [this]
        exact hv
      · intro j hj
        have : a + 1 + j = a + (j + 1) := by omega
        rw [this]
        exact hfail (j + 1) (by omega)
    rw [hrec]
    rfl

/-- When every invocation up to maxRetries fails, the loop makes all the
remaining invocations, sleeps between consecutive ones, and throws the
error of the last invocation. -/
theorem retryLoop_exhaust (attempts : Nat → Except E V) (maxRetries : Int)
    (retryDelay : Nat) :
    ∀ (n a : Nat) (lastError : Option E), (maxRetries - a).toNat = n →
      (a : Int) ≤ maxRetries →
      (∀ j : Nat, a ≤ j → (j : Int) ≤ maxRetries → ∃ e, attempts j = Except.error e) →
      ∃ e, attempts maxRetries.toNat = Except.error e ∧
        retryLoop attempts maxRetries retryDelay a lastError =
          { result := Except.error (some e), calls := n + 1,
            sleeps := List.replicate n retryDelay } := by
  intro n
  induction n with
  | zero =>
    intro a lastError hn ha hfail
    have haeq : (a : Int) = maxRetries := by omega
    obtain ⟨e, he⟩ := hfail a (Nat.le_refl a) ha
    have htn : maxRetries.toNat = a := by omega
    refine ⟨e, by rw [htn]; exact he, ?_⟩
    rw [retryLoop_err attempts maxRetries retryDelay a lastError e ha he]
    have hnot : ¬ (a : Int) < maxRetries := by omega
    simp only [if_neg hnot]
    rw [retryLoop_stop attempts maxRetries retryDelay (a + 1) (some e) (by push_cast; omega)]
    rfl
  | succ n ih =>
    intro a lastError hn ha hfail
    have halt : (a : Int) < maxRetries := by omega
    obtain ⟨e, he⟩ := hfail a (Nat.le_refl a) ha
    obtain ⟨e2, he2, hrec⟩ := ih (a + 1) (some e) (by push_cast; omega)
      (by push_cast; omega)
      (fun j hj hj2 => hfail j (by omega) hj2)
    refine ⟨e2, he2, ?_⟩
    rw [retryLoop_err attempts maxRetries retryDelay a lastError e ha he]
    simp only [if_pos halt]
    rw [hrec]
    rfl

/-- The loop makes at most one invocation per remaining allowed attempt. -/
theorem retryLoop_calls_le (attempts : Nat → Except E V) (maxRetries : Int)
    (retryDelay : Nat) :
    ∀ (n a : Nat) (lastError : Option E), (maxRetries + 1 - a).toNat ≤ n →
      (retryLoop attempts maxRetries retryDelay a lastError).calls ≤ n := by
  intro n
  induction n with
  | zero =>
    intro a lastError hn
    have h : ¬ (a : Int) ≤ maxRetries := by omega
    rw [retryLoop_stop attempts maxRetries retryDelay a lastError h]
  | succ n ih =>
    intro a lastError hn
    by_cases h : (a : Int) ≤ maxRetries
    · cases hout : attempts a with
      | ok v =>
        rw [retryLoop_ok attempts maxRetries retryDelay a lastError v h hout]
        show 1 ≤ n + 1
        omega
      | error e =>
        rw [retryLoop_err attempts maxRetries retryDelay a lastError e h hout]
        have hr : (retryLoop attempts maxRetries retryDelay (a + 1) (some e)).calls ≤ n :=
          ih (a + 1) (some e) (by push_cast; omega)
        by_cases hlt : (a : Int) < maxRetries
        · simp only [if_pos hlt]
          show (retryLoop attempts maxRetries retryDelay (a + 1) (some e)).calls + 1 ≤ n + 1
          omega
        · simp only [if_neg hlt]
          show (retryLoop attempts maxRetries retryDelay (a + 1) (some e)).calls + 1 ≤ n + 1
          omega
    · rw [retryLoop_stop attempts maxRetries retryDelay a lastError h]
      show 0 ≤ n + 1
      omega

/-- Claim C5: for maxRetries >= 0, retry invokes the task at most
maxRetries + 1 times; a first success at invocation k (after k failures)
resolves with that value after exactly k + 1 invocations and exactly one
retryDelay sleep after each failed invocation (none after the final one);
if every allowed invocation fails, it makes all maxRetries + 1 invocations,
rejects with the reason of the last one, and sleeps maxRetries times;
maxRetries = 0 means exactly one invocation. -/
theorem retry_contract (attempts : Nat → Except E V) (maxRetries : Int)
    (retryDelay : Nat) (h0 : 0 ≤ maxRetries) :
    (retry attempts maxRetries retryDelay).calls ≤ maxRetries.toNat + 1 ∧
    (∀ k v, ((k : Nat) : Int) ≤ maxRetries → attempts k = Except.ok v →
        (∀ j, j < k → ∃ e, attempts j = Except.error e) →
        retry attempts maxRetries retryDelay =
          { result := Except.ok v, calls := k + 1,
            sleeps := List.replicate k retryDelay }) ∧
    ((∀ j : Nat, (j : Int) ≤ maxRetries → ∃ e, attempts j = Except.error e) →
        ∃ e, attempts maxRetries.toNat = Except.error e ∧
          retry attempts maxRetries retryDelay =
            { result := Except.error (some e), calls := maxRetries.toNat + 1,
              sleeps := List.replicate maxRetries.toNat retryDelay }) ∧
    (maxRetries = 0 → (retry attempts maxRetries retryDelay).calls = 1) := by
  refine ⟨?_, ?_, ?_, ?_⟩
  · exact retryLoop_calls_le attempts maxRetries retryDelay (maxRetries.toNat + 1) 0 none
      (by omega)
  · intro k v hk hv hfail
    have := retryLoop_first_success attempts maxRetries retryDelay v k 0 none
      (by simpa using hk) (by simpa using hv)
      (by intro j hj; simpa using hfail j hj)
    simpa [retry] using this
  · intro hfail
    have := retryLoop_exhaust attempts maxRetries retryDelay maxRetries.toNat 0 none
      (by omega) (by omega) (fun j _ hj2 => hfail j hj2)
    simpa [retry] using this
  · intro hz
    subst hz
    cases hout : attempts 0 with
    | ok v =>
      unfold retry
      rw [retryLoop_ok attempts 0 retryDelay 0 none v (by omega) hout]
    | error e =>
      unfold retry
      rw [retryLoop_err attempts 0 retryDelay 0 none e (by omega) hout]
      have hnot : ¬ ((0 : Nat) : Int) < 0 := by omega
      simp only [if_neg hnot]
      rw [retryLoop_stop attempts 0 retryDelay 1 (some e) (by omega)]

/-- Example attempt outcomes: the first invocation fails, later ones
succeed. -/
def exAttempts : Nat → Except Nat Nat :=
  fun n => if n = 0 then Except.error 5 else Except.ok 9

theorem retry_contract_witness :
    (retry exAttempts 2 10).calls ≤ (2 : Int).toNat + 1 ∧
    (∀ k v, ((k : Nat) : Int) ≤ 2 → exAttempts k = Except.ok v →
        (∀ j, j < k → ∃ e, exAttempts j = Except.error e) →
        retry exAttempts 2 10 =
          { result := Except.ok v, calls := k + 1,
            sleeps := List.replicate k 10 }) ∧
    ((∀ j : Nat, (j : Int) ≤ 2 → ∃ e, exAttempts j = Except.error e) →
        ∃ e, exAttempts (2 : Int).toNat = Except.error e ∧
          retry exAttempts 2 10 =
            { result := Except.error (some e), calls := (2 : Int).toNat + 1,
              sleeps := List.replicate (2 : Int).toNat 10 }) ∧
    ((2 : Int) = 0 → (retry exAttempts 2 10).calls = 1) :=
  retry_contract exAttempts 2 10 (by omega)

/-- Claim C10: retry with maxRetries < 0 never invokes the task: the loop
guard attempt <= maxRetries fails at once, so the call rejects with the
uninitialized lastError, the undefined value. -/
theorem retry_negative_never_invokes (attempts : Nat → Except E V) (maxRetries : Int)
    (retryDelay : Nat) (h : maxRetries < 0) :
    retry attempts maxRetries retryDelay =
      { result := Except.error none, calls := 0, sleeps := [] } := by
  unfold retry
  exact retryLoop_stop attempts maxRetries retryDelay 0 none (by omega)

theorem retry_negative_never_invokes_witness :
    retry exAttempts (-1) 10 =
      { result := Except.error none, calls := 0, sleeps := [] } :=
  retry_negative_never_invokes exAttempts (-1) 10 (by omega)

/-- Loop of batchExecute over the remaining suffix of the task array, with
start the global index of its first element: each iteration takes the chunk
slice(i, i + batchSize) (= take batchSize of the suffix), settles every
chunk task into a result at its global index (start + chunk position),
awaits the whole chunk, and sleeps once iff delayMs > 0 and another chunk
follows (i + batchSize < tasks.length, i.e. batchSize < suffix length).
The loop advances by i += batchSize; the fuel bounds the number of
iterations, and none models a loop that does not finish within the fuel —
for batchSize >= 1 a fuel of tasks.length always suffices (see
batchRun_complete), while for batchSize = 0 the index never advances and no
fuel suffices (see batchExecute_termination). -/
def batchRun (fuel : Nat) (remaining : List (Except E V)) (batchSize delayMs start : Nat) :
    Option (List (TaskResult E V) × Nat) :=
  match fuel, remaining with
  | _, [] => some ([], 0)
  | 0, _ :: _ => none
  | f + 1, o :: rest =>
    let chunkResults := mapIdxFrom start ((o :: rest).take batchSize)
    match batchRun f ((o :: rest).drop batchSize) batchSize delayMs (start + batchSize) with
    | none => none
    | some (restResults, d) =>
      some (chunkResults ++ restResults,
        (if 0 < delayMs ∧ batchSize < (o :: rest).length then 1 else 0) + d)

/-- Model of batchExecute(tasks, batchSize, delay): run the chunking loop
over the whole array from global index 0, with fuel tasks.length.  The
returned pair is the result array and the number of inter-batch sleeps,
each of duration delayMs. -/
def batchExecute (tasks : List (Except E V)) (batchSize delayMs : Nat) :
    Option (List (TaskResult E V) × Nat) :=
  batchRun tasks.length tasks batchSize delayMs 0

/-- Number of chunks the loop makes over n tasks with chunk size b >= 1:
the ceiling of n / b. -/
def numChunks (n b : Nat) : Nat :=
  (n + b - 1) / b

theorem numChunks_zero (b : Nat) (hb : 1 ≤ b) : numChunks 0 b = 0 := by
  unfold numChunks
  rw [Nat.div_eq_of_lt (by omega)]

theorem numChunks_small (n b : Nat) (hb : 1 ≤ b) (h1 : 1 ≤ n) (h2 : n ≤ b) :
    numChunks n b = 1 := by
  unfold numChunks
  have he : n + b - 1 = (n - 1) + b := by omega
  rw [he, Nat.add_div_right _ (by omega), Nat.div_eq_of_lt (by omega)]

theorem numChunks_step (n b : Nat) (hb : 1 ≤ b) (h : b < n) :
    numChunks (n - b) b + 1 = numChunks n b := by
  unfold numChunks
  have h1 : n - b + b - 1 = n - 1 := by omega
  have h2 : n + b - 1 = (n - 1) + b := by omega
  rw [h1, h2, Nat.add_div_right _ (by omega)]

/-- With batchSize >= 1, fuel equal to the remaining length completes the
loop, the result array records every task's outcome at its global index,
and the sleep count is the number of chunk boundaries (numChunks - 1) when
delayMs > 0 and zero otherwise. -/
theorem batchRun_complete (batchSize delayMs : Nat) (hb : 1 ≤ batchSize) :
    ∀ (fuel : Nat) (remaining : List (Except E V)) (start : Nat),
      remaining.length ≤ fuel →
      batchRun fuel remaining batchSize delayMs start =
        some (mapIdxFrom start remaining,
          if 0 < delayMs then numChunks remaining.length batchSize - 1 else 0) := by
  intro fuel
  induction fuel with
  | zero =>
    intro remaining start hf
    cases remaining with
    | nil =>
      simp only [batchRun, mapIdxFrom, List.length_nil]
      rw [numChunks_zero batchSize hb]
      simp
    | cons o rest => simp at hf
  | succ f ih =>
    intro remaining start hf
    cases remaining with
    | nil =>
      simp only [batchRun, mapIdxFrom, List.length_nil]
      rw [numChunks_zero batchSize hb]
      simp
    | cons o rest =>
      have hlen : (o :: rest).length = rest.length + 1 := by simp
      have hdrop : ((o :: rest).drop batchSize).length = (o :: rest).length - batchSize := by
        simp
      have hfd : ((o :: rest).drop batchSize).length ≤ f := by omega
      simp only [batchRun, ih ((o :: rest).drop batchSize) (start + batchSize) hfd]
      have hsplit : mapIdxFrom start ((o :: rest).take batchSize) ++
          mapIdxFrom (start + batchSize) ((o :: rest).drop batchSize) =
          mapIdxFrom start (o :: rest) := by
        by_cases hc : batchSize ≤ (o :: rest).length
        · have htl : ((o :: rest).take batchSize).length = batchSize :=
            List.length_take_of_le hc
          calc mapIdxFrom start ((o :: rest).take batchSize) ++
                mapIdxFrom (start + batchSize) ((o :: rest).drop batchSize)
              = mapIdxFrom start ((o :: rest).take batchSize) ++
                mapIdxFrom (start + ((o :: rest).take batchSize).length)
                  ((o :: rest).drop batchSize) := by rw [htl]
            _ = mapIdxFrom start ((o :: rest).take batchSize ++ (o :: rest).drop batchSize) :=
                (mapIdxFrom_append start _ _).symm
            _ = mapIdxFrom start (o :: rest) := by rw [List.take_append_drop]
        · have hdnil : (o :: rest).drop batchSize = [] := by
            apply List.drop_eq_nil_of_le
            omega
          have htall : (o :: rest).take batchSize = o :: rest := by
            apply List.take_of_length_le
            omega
          rw [hdnil, htall]
          simp [mapIdxFrom]
      rw [hsplit]
      by_cases hd : 0 < delayMs
      · simp only [if_pos hd]
        by_cases hc : batchSize < (o :: rest).length
        · have h1 : 1 ≤ (o :: rest).length := by omega
          have hstep := numChunks_step (o :: rest).length batchSize hb hc
          have hpos : 1 ≤ numChunks ((o :: rest).length - batchSize) batchSize := by
            have hge : 1 ≤ (o :: rest).length - batchSize := by omega
            by_cases hcc : (o :: rest).length - batchSize ≤ batchSize
            · rw [numChunks_small _ batchSize hb hge hcc]
            · have := numChunks_step ((o :: rest).length - batchSize) batchSize hb (by omega)
              omega
          simp only [if_pos (And.intro hd hc), hdrop, Option.some.injEq, Prod.mk.injEq]
          exact ⟨by trivial, by omega⟩
        · have hds : ((o :: rest).drop batchSize).length = 0 := by
            simp only [List.length_drop]
            omega
          have hone : numChunks (o :: rest).length batchSize = 1 :=
            numChunks_small _ batchSize hb (by simp) (by omega)
          have hnand : ¬(0 < delayMs ∧ batchSize < (o :: rest).length) :=
            fun hcon => hc hcon.2
          simp only [if_neg hnand, hdrop]
          rw [show (o :: rest).length - batchSize = 0 from by omega,
            numChunks_zero batchSize hb, hone]
      · have hnand : ¬(0 < delayMs ∧ batchSize < (o :: rest).length) :=
          fun hcon => hd hcon.1
        simp only [if_neg hd, if_neg hnand]

/-- Claim C6: for batchSize >= 1, batchExecute partitions the tasks into
consecutive chunks of batchSize (last chunk possibly smaller), records each
outcome at the task's original global index — the full result array equals
the index-tagged outcomes in order, so task failures become rejected
entries and never reject the overall promise — and sleeps delayMs exactly
once between consecutive chunks when delayMs > 0 (numChunks - 1 times in
total, none after the final chunk) and never when delayMs = 0; with 7
tasks and batchSize 3 the chunks are (3,3,1) and there are exactly 2
sleeps. -/
theorem batchExecute_shape (tasks : List (Except E V)) (batchSize delayMs : Nat)
    (hb : 1 ≤ batchSize) :
    batchExecute tasks batchSize delayMs =
      some (mapIdxFrom 0 tasks,
        if 0 < delayMs then numChunks tasks.length batchSize - 1 else 0) ∧
    (∀ i o, tasks[i]? = some o → (mapIdxFrom 0 tasks)[i]? = some (taskResultOf i o)) ∧
    (tasks.length = 7 → batchSize = 3 → numChunks tasks.length batchSize = 3) := by
  refine ⟨batchRun_complete batchSize delayMs hb tasks.length tasks 0 (Nat.le_refl _),
    ?_, ?_⟩
  · intro i o hi
    rw [mapIdxFrom_getElem?, hi]
    simp
  · intro h7 h3
    rw [h7, h3]
    rfl

theorem batchExecute_shape_witness :
    batchExecute (exTasks ++ exTasks ++ [Except.ok 5]) 3 100 =
      some (mapIdxFrom 0 (exTasks ++ exTasks ++ [Except.ok 5]),
        if 0 < 100 then numChunks (exTasks ++ exTasks ++ [Except.ok 5]).length 3 - 1
        else 0) ∧
    (∀ i o, (exTasks ++ exTasks ++ [Except.ok 5])[i]? = some o →
        (mapIdxFrom 0 (exTasks ++ exTasks ++ [Except.ok 5]))[i]? =
          some (taskResultOf i o)) ∧
    ((exTasks ++ exTasks ++ [Except.ok 5]).length = 7 → 3 = 3 →
        numChunks (exTasks ++ exTasks ++ [Except.ok 5]).length 3 = 3) :=
  batchExecute_shape (exTasks ++ exTasks ++ [Except.ok 5]) 3 100 (by omega)

/-- Loop index of batchExecute after n iterations: i starts at 0 and each
iteration does i += batchSize.  The index is an Int so that a zero or
negative batchSize is represented as in the source. -/
def batchIndex (batchSize : Int) : Nat → Int
  | 0 => 0
  | n + 1 => batchIndex batchSize n + batchSize

theorem batchIndex_eq (batchSize : Int) (n : Nat) :
    batchIndex batchSize n = n * batchSize := by
  induction n with
  | zero => simp [batchIndex]
  | succ n ih =>
    show batchIndex batchSize n + batchSize = (n + 1 : Nat) * batchSize
    rw [ih]
    push_cast
    ring

/-- Claim C9: the batchExecute loop terminates (its guard i < tasks.length
eventually fails, letting the promise settle) iff batchSize >= 1 or the
task array is empty; for batchSize <= 0 and a non-empty array the loop
index never advances past the array length, and in the fueled model with
batchSize = 0 no amount of fuel completes the loop on a non-empty array. -/
theorem batchExecute_termination (len : Nat) (b : Int)
    (tasks : List (Except E V)) (delayMs fuel : Nat) :
    ((∃ n, (len : Int) ≤ batchIndex b n) ↔ (1 ≤ b ∨ len = 0)) ∧
    (b ≤ 0 → 1 ≤ len → ∀ n, batchIndex b n < (len : Int)) ∧
    (tasks ≠ [] → batchRun fuel tasks 0 delayMs 0 = none) := by
  have hnever : ∀ (f start : Nat) (l : List (Except E V)), l ≠ [] →
      batchRun f l 0 delayMs start = none := by
    intro f
    induction f with
    | zero =>
      intro start l hl
      cases l with
      | nil => exact absurd rfl hl
      | cons o rest => rfl
    | succ f ih =>
      intro start l hl
      cases l with
      | nil => exact absurd rfl hl
      | cons o rest =>
        have hdrop : (o :: rest).drop 0 = o :: rest := rfl
        simp only [batchRun, hdrop, ih (start + 0) (o :: rest) (List.cons_ne_nil o rest)]

  refine ⟨⟨?_, ?_⟩, ?_, ?_⟩
  · intro ⟨n, hn⟩
    by_contra hcon
    push_neg at hcon
    obtain ⟨hb, hlen⟩ := hcon
    rw [batchIndex_eq] at hn
    have hb0 : b ≤ 0 := by omega
    have : (n : Int) * b ≤ 0 := by
      apply mul_nonpos_of_nonneg_of_nonpos
      · exact_mod_cast Nat.zero_le n
      · exact hb0
    omega
  · intro h
    cases h with
    | inl hb =>
      refine ⟨len, ?_⟩
      rw [batchIndex_eq]
      calc (len : Int) = len * 1 := by ring
        _ ≤ len * b := by
            apply mul_le_mul_of_nonneg_left hb
            exact_mod_cast Nat.zero_le len
    | inr hlen =>
      refine ⟨0, ?_⟩
      rw [hlen]
      rfl
  · intro hb hlen n
    rw [batchIndex_eq]
    have : (n : Int) * b ≤ 0 := by
      apply mul_nonpos_of_nonneg_of_nonpos
      · exact_mod_cast Nat.zero_le n
      · exact hb
    omega
  · exact hnever fuel 0 tasks

theorem batchExecute_termination_witness :
    ((∃ n, ((5 : Nat) : Int) ≤ batchIndex 0 n) ↔ (1 ≤ (0 : Int) ∨ (5 : Nat) = 0)) ∧
    ((0 : Int) ≤ 0 → 1 ≤ (5 : Nat) → ∀ n, batchIndex 0 n < ((5 : Nat) : Int)) ∧
    (exTasks ≠ [] → batchRun 97 exTasks 0 0 0 = none) :=
  batchExecute_termination 5 0 exTasks 0 97

/-- Rejection reason of the promise returned by withTimeout: either the
task's own reason, propagated verbatim, or the synthetic Error built by the
timer callback. -/
inductive RaceReason (E : Type) : Type where
  | taskFailure : E → RaceReason E
  | timeoutFailure : String → RaceReason E

/-- Message of the synthetic timeout Error built by withTimeout. -/
def timeoutMessage (timeoutMs : Nat) : String :=
  "Task timeout after " ++ toString timeoutMs ++ "ms"

/-- Outcome of one withTimeout call: how the returned promise settles, and
whether the underlying task was cancelled (the source has no cancellation
path at all: Promise.race leaves the losing task() promise running
unobserved, so this is false by construction). -/
structure RaceResult (E V : Type) : Type where
  result : Except (RaceReason E) V
  taskCancelled : Bool

/-- Model of withTimeout(task, timeout): Promise.race of the task's promise
(settling at taskTime with outcome) against a timer that rejects with the
synthetic Error at time timeoutMs.  The first to settle wins; at equal
times the task's promise wins the race in this model (the claims under
verification only concern the strict orders).  Nothing cancels the losing
side. -/
def withTimeout (taskTime : Nat) (outcome : Except E V) (timeoutMs : Nat) :
    RaceResult E V :=
  if taskTime < timeoutMs then
    { result :=
        match outcome with
        | Except.ok v => Except.ok v
        | Except.error e => Except.error (RaceReason.taskFailure e)
      taskCancelled := false }
  else if timeoutMs < taskTime then
    { result := Except.error (RaceReason.timeoutFailure (timeoutMessage timeoutMs))
      taskCancelled := false }
  else
    { result :=
        match outcome with
        | Except.ok v => Except.ok v
        | Except.error e => Except.error (RaceReason.taskFailure e)
      taskCancelled := false }

/-- Claim C7: if the task settles strictly before the timer, withTimeout
settles with the task's own outcome — the same value, or the same rejection
reason (tagged as a task failure, never replaced); if the timer elapses
strictly first, it rejects with the synthetic timeout failure whose message
carries timeoutMs; and in every case the underlying task is not
cancelled. -/
theorem withTimeout_race (taskTime : Nat) (outcome : Except E V) (timeoutMs : Nat) :
    (taskTime < timeoutMs →
        (∀ v, outcome = Except.ok v →
            withTimeout taskTime outcome timeoutMs =
              { result := Except.ok v, taskCancelled := false }) ∧
        (∀ e, outcome = Except.error e →
            withTimeout taskTime outcome timeoutMs =
              { result := Except.error (RaceReason.taskFailure e),
                taskCancelled := false })) ∧
    (timeoutMs < taskTime →
        withTimeout taskTime outcome timeoutMs =
          { result := Except.error (RaceReason.timeoutFailure (timeoutMessage timeoutMs)),
            taskCancelled := false } ∧
        (∃ pre suf, timeoutMessage timeoutMs = pre ++ toString timeoutMs ++ suf)) ∧
    (withTimeout taskTime outcome timeoutMs).taskCancelled = false := by
  refine ⟨?_, ?_, ?_⟩
  · intro hlt
    constructor
    · intro v hv
      subst hv
      unfold withTimeout
      rw [if_pos hlt]
    · intro e he
      subst he
      unfold withTimeout
      rw [if_pos hlt]
  · intro hgt
    have hnl : ¬ taskTime < timeoutMs := by omega
    constructor
    · unfold withTimeout
      rw [if_neg hnl, if_pos hgt]
    · exact ⟨"Task timeout after ", "ms", rfl⟩
  · unfold withTimeout
    by_cases h1 : taskTime < timeoutMs
    · rw [if_pos h1]
    · rw [if_neg h1]
      by_cases h2 : timeoutMs < taskTime
      · rw [if_pos h2]
      · rw [if_neg h2]

theorem withTimeout_race_witness :
    ((50 : Nat) < 100 →
        (∀ v, (Except.ok 4 : Except Nat Nat) = Except.ok v →
            withTimeout 50 (Except.ok 4 : Except Nat Nat) 100 =
              { result := Except.ok v, taskCancelled := false }) ∧
        (∀ e, (Except.ok 4 : Except Nat Nat) = Except.error e →
            withTimeout 50 (Except.ok 4 : Except Nat Nat) 100 =
              { result := Except.error (RaceReason.taskFailure e),
                taskCancelled := false })) ∧
    ((100 : Nat) < 50 →
        withTimeout 50 (Except.ok 4 : Except Nat Nat) 100 =
          { result := Except.error (RaceReason.timeoutFailure (timeoutMessage 100)),
            taskCancelled := false } ∧
        (∃ pre suf, timeoutMessage 100 = pre ++ toString (100 : Nat) ++ suf)) ∧
    (withTimeout 50 (Except.ok 4 : Except Nat Nat) 100).taskCancelled = false :=
  withTimeout_race 50 (Except.ok 4) 100

end Utils
